import Mathlib

/-!
Verification development for the pyracantha dependency-discovery and
manifest-reconciliation subsystem (src/src/extension.ts).

The TypeScript functions `updateRequirementsTxt`, `collectImportedPackages`,
`isValidPackageName`, `getProjectConfig` and their helpers are embedded as
executable Lean definitions.  File contents are lists of characters; the
directory tree is a first-child/next-sibling tree mirroring the recursive
`scanDirectory` walk; JavaScript regular expressions used by the source are
translated to equivalent character-list scanners.
-/

namespace Pyracantha

/-- Character class of JavaScript's regex `\s` (used by `\s*` and `\s+`). -/
def jsWhitespace (c : Char) : Bool :=
  c ∈ ['\t', '\n', '\u000B', '\u000C', '\r', ' ', '\u00A0', '\u1680',
       '\u2000', '\u2001', '\u2002', '\u2003', '\u2004', '\u2005', '\u2006',
       '\u2007', '\u2008', '\u2009', '\u200A', '\u2028', '\u2029', '\u202F',
       '\u205F', '\u3000', '\uFEFF']

/-- Character class `[a-zA-Z0-9_\-]` of the package-name validity regex in
`isValidPackageName` (src/src/extension.ts line 448). -/
def validChar (c : Char) : Bool :=
  c.isAlpha || c.isDigit || c = '_' || c = '-'

/-- True when the list begins with three copies of the quote character `q`:
the opening or closing delimiter of the docstring regexes
`/""".*?"""/gs` and `/'''.*?'''/gs` (src/src/extension.ts lines 476-477). -/
def startsTriple (q : Char) : List Char → Bool
  | a :: b :: c :: _ => a = q && b = q && c = q
  | _ => false

/-- Scan for the next triple-quote delimiter; on success return the suffix
that follows it (the lazy `.*?` search for the closing delimiter). -/
def skipToClose (q : Char) : List Char → Option (List Char)
  | [] => none
  | a :: rest =>
    if startsTriple q (a :: rest) then some (rest.drop 2)
    else skipToClose q rest

/-- True when some position of the list starts a triple-quote delimiter. -/
def hasTriple (q : Char) : List Char → Bool
  | [] => false
  | a :: rest => startsTriple q (a :: rest) || hasTriple q rest

/-- Fuel-indexed worker for `stripTriple`.  One unit of fuel is spent per
step, so fuel equal to the length of the list always suffices. -/
def stripTripleF (q : Char) : Nat → List Char → List Char
  | 0, l => l
  | _ + 1, [] => []
  | f + 1, a :: rest =>
    if startsTriple q (a :: rest) then
      match skipToClose q (rest.drop 2) with
      | some after => stripTripleF q f after
      | none => a :: rest
    else a :: stripTripleF q f rest

/-- Global replacement of `/qqq.*?qqq/gs` by the empty string: each
leftmost opening triple quote together with the nearest closing triple quote
and everything between them is deleted; an opening delimiter with no closing
delimiter is left in place (the regex does not match there). -/
def stripTriple (q : Char) (l : List Char) : List Char :=
  stripTripleF q l.length l

/-- Split a character list at newline characters, exactly as JavaScript's
`String.prototype.split('\n')`: the result always has one more piece than
there are newlines, and the empty string splits to one empty piece. -/
def splitNl : List Char → List (List Char)
  | [] => [[]]
  | c :: rest =>
    match splitNl rest with
    | [] => [[]]
    | l :: ls => if c = '\n' then [] :: l :: ls else (c :: l) :: ls

/-- Join pieces with single newline separators, exactly as JavaScript's
`Array.prototype.join('\n')`; note that no trailing newline is produced. -/
def joinNl : List (List Char) → List Char
  | [] => []
  | [l] => l
  | l :: ls => l ++ '\n' :: joinNl ls

/-- Translation of the JavaScript expression
`line.match(/^\s*import\s+([^\s,]+)/)` from `collectImportedPackages`
(src/src/extension.ts line 482): skip leading whitespace, require the
literal word `import` followed by at least one whitespace character, and
capture the maximal following run of characters that are neither
whitespace nor commas.  Returns the capture group. -/
def matchImport (l : List Char) : Option (List Char) :=
  let l1 := l.dropWhile jsWhitespace
  if l1.take 6 = "import".data then
    match l1.drop 6 with
    | [] => none
    | c :: rest =>
      if jsWhitespace c then
        let tok := (rest.dropWhile jsWhitespace).takeWhile
          (fun d => !jsWhitespace d && d ≠ ',')
        if tok = [] then none else some tok
      else none
  else none

/-- Translation of `line.match(/^\s*from\s+([^\s,]+)\s+import\s+/)` from
`collectImportedPackages` (src/src/extension.ts line 488).  The captured
token is the dotted path between `from` and `import`; the final `\s+`
requires whitespace after the word `import`. -/
def matchFrom (l : List Char) : Option (List Char) :=
  let l1 := l.dropWhile jsWhitespace
  if l1.take 4 = "from".data then
    match l1.drop 4 with
    | [] => none
    | c :: rest =>
      if jsWhitespace c then
        let l3 := rest.dropWhile jsWhitespace
        let tok := l3.takeWhile (fun d => !jsWhitespace d && d ≠ ',')
        if tok = [] then none
        else
          match l3.drop tok.length with
          | [] => none
          | d :: rest2 =>
            if jsWhitespace d then
              let l5 := rest2.dropWhile jsWhitespace
              if l5.take 6 = "import".data then
                match l5.drop 6 with
                | [] => none
                | e :: _ => if jsWhitespace e then some tok else none
              else none
            else none
      else none
  else none

/-- The expression `match[1].split('.')[0]`: the first dot-separated
segment of a captured import path. -/
def headSegment (tok : List Char) : List Char :=
  tok.takeWhile (fun c => c ≠ '.')

/-- Translation of `isValidPackageName` (src/src/extension.ts lines
446-449): the name is valid when it is not one of the configured standard
library modules and matches the regex of line 448.  The standard-library
list is the `standardLibModules` field of the active project
configuration, passed here as a parameter. -/
def isValidPackageName (standardLibModules : List String) (packageName : String) : Bool :=
  !standardLibModules.contains packageName &&
    !packageName.data.isEmpty && packageName.data.all validChar

/-- The guard `if (packageName && isValidPackageName(packageName))` applied
to the head segment of a captured token (src/src/extension.ts lines
484, 490). -/
def checkSeg (standardLibModules : List String) (seg : List Char) : Option String :=
  if !seg.isEmpty && isValidPackageName standardLibModules (String.mk seg)
  then some (String.mk seg) else none

/-- One line of the per-line loop in `collectImportedPackages`
(src/src/extension.ts lines 480-495): try the `import` pattern first, then
the `from` pattern, and validate the head segment of the capture. -/
def linePackage (standardLibModules : List String) (line : List Char) : Option String :=
  match matchImport line with
  | some tok => checkSeg standardLibModules (headSegment tok)
  | none =>
    match matchFrom line with
    | some tok => checkSeg standardLibModules (headSegment tok)
    | none => none

/-- Line terminators other than `\n` recognised by JavaScript's `.` and
multiline `$`: carriage return, line separator, paragraph separator.  The
comment regex `/#.*$/gm` stops consuming at these characters. -/
def isLineTerm (c : Char) : Bool :=
  c ∈ ['\r', '\u2028', '\u2029']

/-- One pass of the global comment-stripping regex `/#.*$/gm` over one
`\n`-free line: outside a match, characters are copied until a `#` starts
a match; inside a match, characters are dropped until the next line
terminator (which itself is kept and ends the match). -/
def stripHashAux : Bool → List Char → List Char
  | _, [] => []
  | skipping, c :: rest =>
    if skipping then
      if isLineTerm c then c :: stripHashAux false rest
      else stripHashAux true rest
    else
      if c = '#' then stripHashAux true rest
      else c :: stripHashAux false rest

/-- Comment removal on one line, starting outside any match. -/
def stripHashLine (l : List Char) : List Char :=
  stripHashAux false l

/-- The `cleanContent` normalization of `collectImportedPackages`
(src/src/extension.ts lines 475-478) followed by the per-line view used by
the match loop: first strip double-triple-quoted docstring blocks, then
single-triple-quoted ones, split at newlines, then remove `#` comments
from every line (the comment regex never crosses a `\n`, so stripping per
line after the split is exactly the global `/#.*$/gm` replacement before
it). -/
def cleanLines (content : List Char) : List (List Char) :=
  (splitNl (stripTriple '\'' (stripTriple '"' content))).map stripHashLine

/-- All validated package names contributed by one file content, in line
order (at most one candidate per cleaned line, as in the source loop). -/
def lineCandidates (standardLibModules : List String) (content : String) : List String :=
  (cleanLines content.data).filterMap (linePackage standardLibModules)

/-- Insertion into the `importedPackages` set: JavaScript `Set.add` keeps
the first occurrence and ignores re-insertions. -/
def addPkg (acc : List String) (p : String) : List String :=
  if p ∈ acc then acc else acc ++ [p]

/-- Add every candidate of one file to the accumulated set, in order. -/
def addContent (standardLibModules : List String) (acc : List String) (content : String) :
    List String :=
  (lineCandidates standardLibModules content).foldl addPkg acc

/-- A directory listing in first-child/next-sibling form: `nil` is the end
of a listing, `file name content rest` a plain file followed by the rest of
the listing, and `dir name children rest` a subdirectory with its own
listing followed by the rest.  This mirrors the `fs.readdirSync` order that
`scanDirectory` iterates over. -/
inductive Fs where
  | nil : Fs
  | file (name : String) (content : String) (rest : Fs) : Fs
  | dir (name : String) (children : Fs) (rest : Fs) : Fs
deriving DecidableEq

/-- The predicate `file.endsWith('.py')` on an entry name. -/
def pyName (name : String) : Bool :=
  ".py".data.isSuffixOf name.data

/-- Translation of `scanDirectory` (src/src/extension.ts lines 456-498):
walk the listing in order; skip a directory named `myenv` entirely; recurse
into other directories; read every `.py` file and add its import
candidates to the accumulated set. -/
def scan (standardLibModules : List String) : Fs → List String → List String
  | .nil, acc => acc
  | .file name content rest, acc =>
    if pyName name then scan standardLibModules rest (addContent standardLibModules acc content)
    else scan standardLibModules rest acc
  | .dir name children rest, acc =>
    if name = "myenv" then scan standardLibModules rest acc
    else scan standardLibModules rest (scan standardLibModules children acc)

/-- Translation of `collectImportedPackages` (src/src/extension.ts lines
452-502): scan the project root's listing starting from an empty set and
return the discovered packages in insertion order (`Array.from`). -/
def collectImportedPackages (standardLibModules : List String) (root : Fs) : List String :=
  scan standardLibModules root []

/-- Replace the children of every directory named `myenv`, at any depth,
by an empty listing.  Used to state that such directories contribute
nothing to a scan. -/
def pruneMyenv : Fs → Fs
  | .nil => .nil
  | .file name content rest => .file name content (pruneMyenv rest)
  | .dir name children rest =>
    .dir name (if name = "myenv" then .nil else pruneMyenv children) (pruneMyenv rest)

deriving instance DecidableEq for Except

/-- A directory listing whose file reads may fail: the content of a file is
either its text or the message of the exception `fs.readFileSync` throws
(permission denied, disappeared file, encoding failure). -/
inductive FsE where
  | nil : FsE
  | file (name : String) (content : Except String String) (rest : FsE) : FsE
  | dir (name : String) (children : FsE) (rest : FsE) : FsE
deriving DecidableEq

/-- The `scanDirectory` walk over a listing with fallible reads.  The
source has no try/catch around `fs.readFileSync` (src/src/extension.ts
line 473), so a throw propagates out of the whole recursion: an `error`
content of a scanned `.py` file becomes the result of the entire scan. -/
def scanE (standardLibModules : List String) : FsE → List String → Except String (List String)
  | .nil, acc => .ok acc
  | .file name content rest, acc =>
    if pyName name then
      match content with
      | .error e => .error e
      | .ok text => scanE standardLibModules rest (addContent standardLibModules acc text)
    else scanE standardLibModules rest acc
  | .dir name children rest, acc =>
    if name = "myenv" then scanE standardLibModules rest acc
    else
      match scanE standardLibModules children acc with
      | .error e => .error e
      | .ok acc2 => scanE standardLibModules rest acc2

/-- `collectImportedPackages` over a listing with fallible reads. -/
def collectImportedPackagesE (standardLibModules : List String) (root : FsE) :
    Except String (List String) :=
  scanE standardLibModules root []

/-- UTF-16 code units of one character, as compared by JavaScript string
comparison (the default `Array.prototype.sort` comparator). -/
def utf16Char (c : Char) : List Nat :=
  let v := c.toNat
  if v < 65536 then [v]
  else [55296 + (v - 65536) / 1024, 56320 + (v - 65536) % 1024]

/-- UTF-16 code units of a string. -/
def utf16Str (s : String) : List Nat :=
  (s.data.map utf16Char).flatten

/-- Lexicographic comparison of code-unit sequences, the order JavaScript's
default sort comparator induces on strings. -/
def lexLe : List Nat → List Nat → Bool
  | [], _ => true
  | _ :: _, [] => false
  | a :: as, b :: bs =>
    if a < b then true else if b < a then false else lexLe as bs

/-- The string order used by `updatedPackages.sort()`
(src/src/extension.ts line 435). -/
def jsLe (a b : String) : Prop :=
  lexLe (utf16Str a) (utf16Str b) = true

instance : DecidableRel jsLe := fun _ _ =>
  inferInstanceAs (Decidable (_ = true))

instance : IsTotal String jsLe where
  total a b := by
    unfold jsLe
    generalize utf16Str a = x
    generalize utf16Str b = y
    induction x generalizing y with
    | nil => left; rfl
    | cons u us ih =>
      cases y with
      | nil => right; rfl
      | cons v vs =>
        by_cases huv : u < v
        · left; simp [lexLe, huv]
        · by_cases hvu : v < u
          · right; simp [lexLe, hvu]
          · rcases ih vs with h | h
            · left; simp [lexLe, huv, hvu, h]
            · right; simp [lexLe, huv, hvu, h]

instance : IsTrans String jsLe where
  trans a b c hab hbc := by
    unfold jsLe at hab hbc ⊢
    revert hab hbc
    generalize utf16Str a = x
    generalize utf16Str b = y
    generalize utf16Str c = z
    intro hab hbc
    induction x generalizing y z with
    | nil => rfl
    | cons u us ih =>
      cases y with
      | nil => simp [lexLe] at hab
      | cons v vs =>
        cases z with
        | nil => simp [lexLe] at hbc
        | cons w ws =>
          simp only [lexLe] at hab hbc ⊢
          by_cases huv : u < v
          · by_cases hvw : v < w
            · simp [show u < w by omega]
            · by_cases hwv : w < v
              · simp [hvw, hwv] at hbc
              · have : v = w := by omega
                subst this
                simp [huv]
          · by_cases hvu : v < u
            · simp [huv, hvu] at hab
            · have huv2 : u = v := by omega
              subst huv2
              by_cases huw : u < w
              · simp [huw]
              · by_cases hwu : w < u
                · simp at hbc; omega
                · have : u = w := by omega
                  subst this
                  simp [show ¬ u < u by omega] at hab hbc ⊢
                  exact ih vs ws hab hbc

/-- The spread `[...new Set(xs)]`: deduplicate keeping first occurrences. -/
def dedupPreserve (xs : List String) : List String :=
  xs.foldl addPkg []

/-- String-level wrapper of `splitNl`, i.e. `data.split('\n')`. -/
def splitNlS (s : String) : List String :=
  (splitNl s.data).map String.mk

/-- String-level wrapper of `joinNl`, i.e. `array.join('\n')`. -/
def joinNlS (ls : List String) : String :=
  String.mk (joinNl (ls.map String.data))

/-- The read step of `updateRequirementsTxt` (src/src/extension.ts lines
409-419): `data.split('\n').filter(Boolean)` keeps every non-empty line of
the manifest verbatim, with no further parsing. -/
def existingPackagesOf (data : String) : List String :=
  (splitNlS data).filter (fun l => l ≠ "")

/-- The in-memory manifest after the read, with `none` standing for the
absent-file (`ENOENT`) case in which `existingPackages` stays `[]`. -/
def readLines : Option String → List String
  | none => []
  | some data => existingPackagesOf data

/-- The diff step `importedPackages.filter(pkg =>
!existingPackages.includes(pkg))` (src/src/extension.ts line 427). -/
def newPackagesOf (existingPackages importedPackages : List String) : List String :=
  importedPackages.filter (fun p => p ∉ existingPackages)

/-- The merge `[...new Set([...existingPackages, ...newPackages])].sort()`
(src/src/extension.ts line 435). -/
def updatedPackagesOf (existingPackages newPackages : List String) : List String :=
  List.insertionSort jsLe (dedupPreserve (existingPackages ++ newPackages))

/-- The write decision of `updateRequirementsTxt` (src/src/extension.ts
lines 427-438): `none` when there is no new package (the function returns
without touching the file), otherwise the full replacement content
`updatedPackages.join('\n')` passed to `fs.promises.writeFile`. -/
def updateWrite (data : Option String) (importedPackages : List String) : Option String :=
  if newPackagesOf (readLines data) importedPackages = [] then none
  else some (joinNlS (updatedPackagesOf (readLines data)
    (newPackagesOf (readLines data) importedPackages)))

/-- The manifest file content after one `updateRequirementsTxt` call: the
old content when nothing is written, the written replacement otherwise. -/
def updateResult (data : Option String) (importedPackages : List String) : Option String :=
  match updateWrite data importedPackages with
  | none => data
  | some w => some w

/-- Character class `[a-zA-Z0-9-_]` of the manifest-line pattern used by
the legacy variant (src/unnamed/part_000 line 187, src/src/extension.js
line 364). -/
def nameChar (c : Char) : Bool :=
  c.isAlpha || c.isDigit || c = '-' || c = '_'

/-- Character class `[0-9a-zA-Z.\-_]` of the version part of that
pattern. -/
def versChar (c : Char) : Bool :=
  c.isAlpha || c.isDigit || c = '.' || c = '-' || c = '_'

/-- Translation of `line.match(/^([a-zA-Z0-9-_]+)(==[0-9a-zA-Z.\-_]+)?$/)`:
a full-line match of a bare name optionally followed by a `==` version
specifier; returns the (name, specifier) captures, the specifier being
empty when absent. -/
def matchManifestLine (l : List Char) : Option (List Char × List Char) :=
  let name := l.takeWhile nameChar
  if name = [] then none
  else
    match l.drop name.length with
    | [] => some (name, [])
    | '=' :: '=' :: v =>
      if v ≠ [] ∧ v.all versChar then some (name, '=' :: '=' :: v) else none
    | _ => none

/-- JavaScript `Map.prototype.set`: update the value in place if the key
exists, append the pair otherwise. -/
def mapSet (m : List (String × String)) (k v : String) : List (String × String) :=
  if m.any (fun p => p.1 = k) then
    m.map (fun p => if p.1 = k then (k, v) else p)
  else m ++ [(k, v)]

/-- The manifest parse of the legacy variant (src/unnamed/part_000 lines
184-194): split at newlines and enter every line matching the manifest
pattern into a name-to-version map. -/
def parseManifest (content : String) : List (String × String) :=
  (splitNlS content).foldl
    (fun m line =>
      match matchManifestLine line.data with
      | some (n, v) => mapSet m (String.mk n) (String.mk v)
      | none => m)
    []

/-- The project configuration record (src/src/extension.ts lines 7-11). -/
structure ProjectConfig where
  directories : List String
  files : List (String × String)
  standardLibModules : List String
deriving DecidableEq

/-- Translation of `getProjectConfig` (src/src/extension.ts lines 96-101)
with the mutable global `globalProjectConfig` (line 20) made explicit: the
function takes the current value of the global and returns the
configuration it would use together with the new value of the global.
`loadProjectConfig` stands for the file-system read of the configuration
for a given project path. -/
def getProjectConfig (loadProjectConfig : String → ProjectConfig)
    (globalProjectConfig : Option ProjectConfig) (projectPath : String) :
    ProjectConfig × Option ProjectConfig :=
  match globalProjectConfig with
  | some cfg => (cfg, some cfg)
  | none => (loadProjectConfig projectPath, some (loadProjectConfig projectPath))

/-- The `standardLibModules` field of the default configuration written by
`loadProjectConfig` (src/src/extension.ts lines 66-78). -/
def defaultStandardLibModules : List String :=
  ["abc", "argparse", "array", "asyncio", "base64", "binascii", "bisect",
   "calendar", "collections", "cmath", "concurrent", "contextlib", "copy",
   "csv", "ctypes", "datetime", "decimal", "difflib", "dis", "email",
   "enum", "faulthandler", "filecmp", "fnmatch", "fractions", "functools",
   "gc", "getopt", "getpass", "gettext", "glob", "gzip", "hashlib",
   "heapq", "hmac", "html", "http", "imaplib", "importlib", "inspect",
   "io", "itertools", "json", "keyword", "linecache", "locale", "logging",
   "lzma", "mailbox", "math", "mimetypes", "multiprocessing", "netrc",
   "numbers", "operator", "os", "pathlib", "pickle", "pprint", "profile",
   "pstats", "queue", "random", "re", "readline", "resource",
   "rlcompleter", "sched", "secrets", "select", "shelve", "shutil",
   "signal", "site", "smtplib", "socket", "sqlite3", "ssl", "stat",
   "statistics", "string", "subprocess", "sys", "tabnanny", "tempfile",
   "termios", "textwrap", "threading", "time", "timeit", "trace",
   "traceback", "tracemalloc", "tty", "types", "unittest", "urllib",
   "uuid", "venv", "warnings", "weakref", "webbrowser", "xml", "zipfile",
   "zipimport", "zlib"]

/-- A demonstration configuration loader mapping two project roots to two
different configurations whose standard-library lists differ; used to
exhibit the effect of the `globalProjectConfig` cache. -/
def loadConfigDemo : String → ProjectConfig :=
  fun p => if p = "r1" then ⟨["src"], [], ["requests"]⟩ else ⟨["src"], [], []⟩

theorem skipToClose_length_le (q : Char) :
    ∀ l l', skipToClose q l = some l' → l'.length ≤ l.length := by
  intro l
  induction l with
  | nil => intro l' h; simp [skipToClose] at h
  | cons a rest ih =>
    intro l' h
    by_cases hs : startsTriple q (a :: rest) = true
    · simp [skipToClose, hs] at h
      subst h
      have : (rest.drop 2).length ≤ rest.length := by
        rw [List.length_drop]; omega
      simp; omega
    · simp [skipToClose, hs] at h
      have := ih l' h
      simp; omega

theorem stripTripleF_congr (q : Char) :
    ∀ f₁ f₂ l, l.length ≤ f₁ → l.length ≤ f₂ →
      stripTripleF q f₁ l = stripTripleF q f₂ l := by
  intro f₁
  induction f₁ with
  | zero =>
    intro f₂ l h1 _
    have : l = [] := List.length_eq_zero.mp (Nat.le_zero.mp h1)
    subst this
    cases f₂ <;> simp [stripTripleF]
  | succ f ih =>
    intro f₂ l h1 h2
    cases l with
    | nil => cases f₂ <;> simp [stripTripleF]
    | cons a rest =>
      cases f₂ with
      | zero => simp at h2
      | succ g =>
        simp only [stripTripleF]
        by_cases hs : startsTriple q (a :: rest) = true
        · simp only [hs, if_true]
          cases hc : skipToClose q (rest.drop 2) with
          | none => rfl
          | some after =>
            have hlen : after.length ≤ (rest.drop 2).length :=
              skipToClose_length_le q _ _ hc
            have hdrop : (rest.drop 2).length ≤ rest.length := by
              rw [List.length_drop]; omega
            have hr1 : rest.length ≤ f := by simp at h1; omega
            have hr2 : rest.length ≤ g := by simp at h2; omega
            exact ih g after (by omega) (by omega)
        · simp only [hs, if_false, Bool.false_eq_true]
          have hr1 : rest.length ≤ f := by simp at h1; omega
          have hr2 : rest.length ≤ g := by simp at h2; omega
          rw [ih g rest hr1 hr2]

theorem splitNl_ne_nil : ∀ l, splitNl l ≠ [] := by
  intro l
  cases l with
  | nil => simp [splitNl]
  | cons c rest =>
    simp only [splitNl]
    cases splitNl rest with
    | nil => simp
    | cons p ps => by_cases h : c = '\n' <;> simp [h]

theorem mem_splitNl_not_nl : ∀ l p, p ∈ splitNl l → '\n' ∉ p := by
  intro l
  induction l with
  | nil => intro p hp; simp [splitNl] at hp; simp [hp]
  | cons c rest ih =>
    intro p hp
    simp only [splitNl] at hp
    cases hsp : splitNl rest with
    | nil => exact absurd hsp (splitNl_ne_nil rest)
    | cons q qs =>
      rw [hsp] at hp
      by_cases h : c = '\n'
      · simp [h] at hp
        rcases hp with hp | hp | hp
        · simp [hp]
        · exact ih p (by rw [hsp]; simp [hp])
        · exact ih p (by rw [hsp]; simp [hp])
      · simp [h] at hp
        rcases hp with hp | hp
        · subst hp
          intro hmem
          rcases List.mem_cons.mp hmem with h' | h'
          · exact h h'.symm
          · exact ih q (by rw [hsp]; simp) h'
        · exact ih p (by rw [hsp]; simp [hp])

theorem splitNl_of_not_mem : ∀ l, '\n' ∉ l → splitNl l = [l] := by
  intro l
  induction l with
  | nil => intro _; rfl
  | cons c rest ih =>
    intro h
    have hc : c ≠ '\n' := fun hh => h (by simp [hh])
    have hr : '\n' ∉ rest := fun hh => h (by simp [hh])
    simp only [splitNl, ih hr]
    simp [hc]

theorem splitNl_append_nl (l t : List Char) (h : '\n' ∉ l) :
    splitNl (l ++ '\n' :: t) = l :: splitNl t := by
  induction l with
  | nil =>
    simp only [List.nil_append, splitNl]
    cases hsp : splitNl t with
    | nil => exact absurd hsp (splitNl_ne_nil t)
    | cons p ps => simp
  | cons c rest ih =>
    have hc : c ≠ '\n' := fun hh => h (by simp [hh])
    have hr : '\n' ∉ rest := fun hh => h (by simp [hh])
    simp only [List.cons_append, splitNl, List.append_eq]
    rw [ih hr]
    simp [hc]

theorem splitNl_joinNl : ∀ ls, ls ≠ [] → (∀ l ∈ ls, '\n' ∉ l) →
    splitNl (joinNl ls) = ls := by
  intro ls
  induction ls with
  | nil => intro h _; exact absurd rfl h
  | cons l rest ih =>
    intro _ hmem
    cases rest with
    | nil =>
      simp only [joinNl]
      exact splitNl_of_not_mem l (hmem l (by simp))
    | cons m ms =>
      have hl : '\n' ∉ l := hmem l (by simp)
      show splitNl (l ++ '\n' :: joinNl (m :: ms)) = l :: m :: ms
      rw [splitNl_append_nl l _ hl]
      rw [ih (by simp) (fun x hx => hmem x (by simp [hx]))]

theorem joinNl_getLast_ne_nl : ∀ ls, ls ≠ [] → (∀ l ∈ ls, l ≠ [] ∧ '\n' ∉ l) →
    ∃ c, (joinNl ls).getLast? = some c ∧ c ≠ '\n' := by
  intro ls
  induction ls with
  | nil => intro h _; exact absurd rfl h
  | cons l rest ih =>
    intro _ hmem
    cases rest with
    | nil =>
      obtain ⟨hne, hnl⟩ := hmem l (by simp)
      refine ⟨l.getLast hne, ?_, ?_⟩
      · simp [joinNl, List.getLast?_eq_getLast l hne]
      · intro h
        exact hnl (h ▸ List.getLast_mem hne)
    | cons m ms =>
      obtain ⟨c, hc, hcne⟩ := ih (by simp) (fun x hx => hmem x (by simp [hx]))
      refine ⟨c, ?_, hcne⟩
      show (l ++ '\n' :: joinNl (m :: ms)).getLast? = some c
      rw [List.getLast?_append]
      rw [show ('\n' :: joinNl (m :: ms)) = ['\n'] ++ joinNl (m :: ms) from rfl]
      rw [List.getLast?_append, hc]
      rfl

theorem mem_foldl_addPkg : ∀ (xs acc : List String) (a : String),
    a ∈ xs.foldl addPkg acc ↔ a ∈ acc ∨ a ∈ xs := by
  intro xs
  induction xs with
  | nil => intro acc a; simp
  | cons x xs ih =>
    intro acc a
    simp only [List.foldl_cons, ih, addPkg]
    by_cases hx : x ∈ acc
    · simp only [hx, if_true]
      constructor
      · rintro (h | h)
        · exact Or.inl h
        · exact Or.inr (by simp [h])
      · rintro (h | h)
        · exact Or.inl h
        · rcases List.mem_cons.mp h with h | h
          · exact Or.inl (h ▸ hx)
          · exact Or.inr h
    · simp only [hx, if_false]
      constructor
      · rintro (h | h)
        · rcases List.mem_append.mp h with h | h
          · exact Or.inl h
          · simp at h; exact Or.inr (by simp [h])
        · exact Or.inr (by simp [h])
      · rintro (h | h)
        · exact Or.inl (List.mem_append.mpr (Or.inl h))
        · rcases List.mem_cons.mp h with h | h
          · exact Or.inl (List.mem_append.mpr (Or.inr (by simp [h])))
          · exact Or.inr h

theorem nodup_foldl_addPkg : ∀ (xs acc : List String), acc.Nodup →
    (xs.foldl addPkg acc).Nodup := by
  intro xs
  induction xs with
  | nil => intro acc h; simpa
  | cons x xs ih =>
    intro acc h
    simp only [List.foldl_cons]
    apply ih
    unfold addPkg
    by_cases hx : x ∈ acc
    · simpa [hx]
    · simp only [hx, if_false]
      rw [show (acc ++ [x]).Nodup ↔ acc.Nodup ∧ x ∉ acc by simp [List.nodup_append]]
      exact ⟨h, hx⟩

theorem mem_dedupPreserve (xs : List String) (a : String) :
    a ∈ dedupPreserve xs ↔ a ∈ xs := by
  unfold dedupPreserve
  rw [mem_foldl_addPkg]
  simp

theorem nodup_dedupPreserve (xs : List String) : (dedupPreserve xs).Nodup :=
  nodup_foldl_addPkg xs [] List.nodup_nil

theorem mem_updatedPackagesOf (e n : List String) (a : String) :
    a ∈ updatedPackagesOf e n ↔ a ∈ e ∨ a ∈ n := by
  unfold updatedPackagesOf
  rw [(List.perm_insertionSort jsLe _).mem_iff, mem_dedupPreserve]
  simp

theorem nodup_updatedPackagesOf (e n : List String) :
    (updatedPackagesOf e n).Nodup := by
  unfold updatedPackagesOf
  rw [(List.perm_insertionSort jsLe _).nodup_iff]
  exact nodup_dedupPreserve _

theorem sorted_updatedPackagesOf (e n : List String) :
    List.Sorted jsLe (updatedPackagesOf e n) :=
  List.sorted_insertionSort jsLe _

theorem mem_existingPackagesOf (data : String) (l : String) :
    l ∈ existingPackagesOf data ↔ l ∈ splitNlS data ∧ l ≠ "" := by
  unfold existingPackagesOf
  rw [List.mem_filter]
  simp

theorem mem_readLines_props (data : Option String) (l : String)
    (h : l ∈ readLines data) : l ≠ "" ∧ '\n' ∉ l.data := by
  cases data with
  | none => simp [readLines] at h
  | some d =>
    rw [readLines, mem_existingPackagesOf] at h
    refine ⟨h.2, ?_⟩
    obtain ⟨hs, -⟩ := h
    unfold splitNlS at hs
    obtain ⟨piece, hpiece, hmk⟩ := List.mem_map.mp hs
    have : l.data = piece := by rw [← hmk]
    rw [this]
    exact mem_splitNl_not_nl d.data piece hpiece

theorem existingPackagesOf_joinNlS (ls : List String) (hne : ls ≠ [])
    (hprops : ∀ l ∈ ls, l ≠ "" ∧ '\n' ∉ l.data) :
    existingPackagesOf (joinNlS ls) = ls := by
  have hdata : (joinNlS ls).data = joinNl (ls.map String.data) := rfl
  have hsplit : splitNl (joinNl (ls.map String.data)) = ls.map String.data := by
    apply splitNl_joinNl
    · simpa using hne
    · intro l hl
      obtain ⟨s, hs, hmk⟩ := List.mem_map.mp hl
      rw [← hmk]
      exact (hprops s hs).2
  have hsplitS : splitNlS (joinNlS ls) = ls := by
    unfold splitNlS
    rw [hdata, hsplit, List.map_map]
    have : String.mk ∘ String.data = id := by
      funext s; rfl
    rw [this, List.map_id]
  unfold existingPackagesOf
  rw [hsplitS]
  rw [List.filter_eq_self]
  intro a ha
  simpa using (hprops a ha).1

theorem newPackagesOf_eq_nil_iff (e imp : List String) :
    newPackagesOf e imp = [] ↔ ∀ p ∈ imp, p ∈ e := by
  unfold newPackagesOf
  rw [List.filter_eq_nil_iff]
  constructor
  · intro h p hp
    have := h p hp
    simpa using this
  · intro h p hp
    simpa using h p hp

theorem mem_newPackagesOf (e imp : List String) (p : String) :
    p ∈ newPackagesOf e imp ↔ p ∈ imp ∧ p ∉ e := by
  unfold newPackagesOf
  rw [List.mem_filter]
  simp

theorem updateWrite_some_lines (data : Option String) (imp : List String) (w : String)
    (himp : ∀ p ∈ imp, p ≠ "" ∧ '\n' ∉ p.data)
    (hw : updateWrite data imp = some w) :
    existingPackagesOf w =
      updatedPackagesOf (readLines data) (newPackagesOf (readLines data) imp) := by
  unfold updateWrite at hw
  by_cases hnil : newPackagesOf (readLines data) imp = []
  · simp [hnil] at hw
  · simp only [hnil, if_false] at hw
    have hw' : w = joinNlS (updatedPackagesOf (readLines data) (newPackagesOf (readLines data) imp)) := by
      cases hw; rfl
    subst hw'
    apply existingPackagesOf_joinNlS
    · intro habs
      obtain ⟨p, hp⟩ := List.exists_mem_of_ne_nil _ hnil
      have : p ∈ updatedPackagesOf (readLines data) (newPackagesOf (readLines data) imp) :=
        (mem_updatedPackagesOf _ _ p).mpr (Or.inr hp)
      rw [habs] at this
      simp at this
    · intro l hl
      rcases (mem_updatedPackagesOf _ _ l).mp hl with h | h
      · exact mem_readLines_props data l h
      · exact himp l ((mem_newPackagesOf _ _ l).mp h).1

theorem checkSeg_isValid (standardLibModules : List String) (seg : List Char)
    (p : String) (h : checkSeg standardLibModules seg = some p) :
    isValidPackageName standardLibModules p = true := by
  unfold checkSeg at h
  by_cases hc : (!seg.isEmpty && isValidPackageName standardLibModules (String.mk seg)) = true
  · rw [if_pos hc] at h
    cases h
    exact (Bool.and_eq_true _ _).mp hc |>.2
  · rw [if_neg hc] at h
    cases h

theorem linePackage_isValid (standardLibModules : List String) (line : List Char)
    (p : String) (h : linePackage standardLibModules line = some p) :
    isValidPackageName standardLibModules p = true := by
  unfold linePackage at h
  cases hm : matchImport line with
  | some tok =>
    rw [hm] at h
    exact checkSeg_isValid standardLibModules (headSegment tok) p h
  | none =>
    rw [hm] at h
    cases hf : matchFrom line with
    | some tok =>
      rw [hf] at h
      exact checkSeg_isValid standardLibModules (headSegment tok) p h
    | none =>
      rw [hf] at h
      exact Option.noConfusion h

theorem mem_addContent (standardLibModules : List String) (acc : List String)
    (content : String) (p : String) (h : p ∈ addContent standardLibModules acc content) :
    p ∈ acc ∨ isValidPackageName standardLibModules p = true := by
  unfold addContent at h
  rcases (mem_foldl_addPkg _ _ _).mp h with h | h
  · exact Or.inl h
  · right
    unfold lineCandidates at h
    obtain ⟨line, _, hline⟩ := List.mem_filterMap.mp h
    exact linePackage_isValid standardLibModules line p hline

theorem scan_isValid (standardLibModules : List String) :
    ∀ (t : Fs) (acc : List String),
      (∀ p ∈ acc, isValidPackageName standardLibModules p = true) →
      ∀ p ∈ scan standardLibModules t acc, isValidPackageName standardLibModules p = true := by
  intro t
  induction t with
  | nil => intro acc hacc p hp; exact hacc p hp
  | file name content rest ih =>
    intro acc hacc p hp
    unfold scan at hp
    by_cases hpy : pyName name = true
    · rw [if_pos hpy] at hp
      apply ih _ _ p hp
      intro q hq
      rcases mem_addContent standardLibModules acc content q hq with h | h
      · exact hacc q h
      · exact h
    · rw [if_neg hpy] at hp
      exact ih acc hacc p hp
  | dir name children rest ihc ihr =>
    intro acc hacc p hp
    unfold scan at hp
    by_cases hn : name = "myenv"
    · rw [if_pos hn] at hp
      exact ihr acc hacc p hp
    · rw [if_neg hn] at hp
      exact ihr _ (ihc acc hacc) p hp

theorem isValidPackageName_props (standardLibModules : List String) (p : String)
    (h : isValidPackageName standardLibModules p = true) :
    p ∉ standardLibModules ∧ p ≠ "" ∧ p.data.all validChar = true ∧ '.' ∉ p.data := by
  unfold isValidPackageName at h
  obtain ⟨h1, hall⟩ := (Bool.and_eq_true _ _).mp h
  obtain ⟨hcont, hemp⟩ := (Bool.and_eq_true _ _).mp h1
  refine ⟨?_, ?_, hall, ?_⟩
  · have hfalse : standardLibModules.contains p = false := by
      cases hcc : standardLibModules.contains p
      · rfl
      · rw [hcc] at hcont; simp at hcont
    simpa using hfalse
  · intro habs
    rw [habs] at hemp
    simp at hemp
  · intro habs
    have := List.all_eq_true.mp hall '.' habs
    simp [validChar] at this

theorem startsTriple_append_pad (q x : Char) (d r : List Char) :
    startsTriple q (x :: (d ++ q :: q :: q :: r)) =
      startsTriple q (x :: (d ++ [q, q])) := by
  cases d with
  | nil => simp [startsTriple]
  | cons a d2 =>
    cases d2 with
    | nil => simp [startsTriple]
    | cons b d3 => simp [startsTriple]

theorem skipToClose_docstring (q : Char) :
    ∀ d r, hasTriple q (d ++ [q, q]) = false →
      skipToClose q (d ++ q :: q :: q :: r) = some r := by
  intro d
  induction d with
  | nil =>
    intro r _
    have hq : startsTriple q (q :: q :: q :: r) = true := by simp [startsTriple]
    simp [skipToClose, hq]
  | cons x d2 ih =>
    intro r h
    rw [show ((x :: d2) ++ [q, q]) = x :: (d2 ++ [q, q]) from rfl] at h
    unfold hasTriple at h
    rw [Bool.or_eq_false_iff] at h
    have hs : startsTriple q (x :: (d2 ++ q :: q :: q :: r)) = false := by
      rw [startsTriple_append_pad]
      exact h.1
    rw [show ((x :: d2) ++ q :: q :: q :: r) = x :: (d2 ++ q :: q :: q :: r) from rfl]
    unfold skipToClose
    rw [hs]
    simp only [Bool.false_eq_true, if_false]
    exact ih r h.2

theorem stripTriple_docstring (q : Char) (d r : List Char)
    (h : hasTriple q (d ++ [q, q]) = false) :
    stripTriple q (q :: q :: q :: (d ++ q :: q :: q :: r)) = stripTriple q r := by
  unfold stripTriple
  have hlen : (q :: q :: q :: (d ++ q :: q :: q :: r)).length =
      (d.length + r.length + 5) + 1 := by
    simp
    omega
  rw [hlen]
  have hst : startsTriple q (q :: q :: q :: (d ++ q :: q :: q :: r)) = true := by
    simp [startsTriple]
  simp only [stripTripleF, hst, if_true]
  have hdrop : ((q :: q :: (d ++ q :: q :: q :: r)).drop 2) = d ++ q :: q :: q :: r := rfl
  rw [hdrop, skipToClose_docstring q d r h]
  exact stripTripleF_congr q _ _ r (by omega) le_rfl

theorem skipToClose_sublist (q : Char) :
    ∀ l l', skipToClose q l = some l' → List.Sublist l' l := by
  intro l
  induction l with
  | nil => intro l' h; simp [skipToClose] at h
  | cons a rest ih =>
    intro l' h
    by_cases hs : startsTriple q (a :: rest) = true
    · simp [skipToClose, hs] at h
      subst h
      exact (List.drop_sublist 2 rest).trans (List.sublist_cons_self a rest)
    · simp [skipToClose, hs] at h
      exact (ih l' h).trans (List.sublist_cons_self a rest)

theorem stripTripleF_sublist (q : Char) :
    ∀ f l, List.Sublist (stripTripleF q f l) l := by
  intro f
  induction f with
  | zero => intro l; exact List.Sublist.refl l
  | succ f ih =>
    intro l
    cases l with
    | nil => simp [stripTripleF]
    | cons a rest =>
      simp only [stripTripleF]
      by_cases hs : startsTriple q (a :: rest) = true
      · simp only [hs, if_true]
        cases hc : skipToClose q (rest.drop 2) with
        | none => exact List.Sublist.refl _
        | some after =>
          have h1 : List.Sublist after (rest.drop 2) := skipToClose_sublist q _ _ hc
          have h2 : List.Sublist (rest.drop 2) rest := List.drop_sublist 2 rest
          exact ((ih after).trans (h1.trans h2)).trans (List.sublist_cons_self a rest)
      · simp only [hs, Bool.false_eq_true, if_false]
        exact List.Sublist.cons₂ a (ih rest)

theorem stripTriple_sublist (q : Char) (l : List Char) :
    List.Sublist (stripTriple q l) l :=
  stripTripleF_sublist q l.length l

theorem startsTriple_head_ne (q a : Char) (rest : List Char) (h : a ≠ q) :
    startsTriple q (a :: rest) = false := by
  cases rest with
  | nil => rfl
  | cons b t =>
    cases t with
    | nil => rfl
    | cons c t2 => simp [startsTriple, h]

theorem stripTriple_cons_ne (q a : Char) (l : List Char) (h : a ≠ q) :
    stripTriple q (a :: l) = a :: stripTriple q l := by
  unfold stripTriple
  rw [show (a :: l).length = l.length + 1 from rfl]
  simp only [stripTripleF, startsTriple_head_ne q a l h, Bool.false_eq_true, if_false]

theorem scan_pruneMyenv (standardLibModules : List String) :
    ∀ (t : Fs) (acc : List String),
      scan standardLibModules (pruneMyenv t) acc = scan standardLibModules t acc := by
  intro t
  induction t with
  | nil => intro acc; rfl
  | file name content rest ih =>
    intro acc
    unfold pruneMyenv scan
    by_cases hpy : pyName name = true
    · rw [if_pos hpy, if_pos hpy, ih]
    · rw [if_neg hpy, if_neg hpy, ih]
  | dir name children rest ihc ihr =>
    intro acc
    unfold pruneMyenv scan
    by_cases hn : name = "myenv"
    · rw [if_pos hn, if_pos hn]
      exact ihr acc
    · rw [if_neg hn, if_neg hn, if_neg hn, ihc, ihr]

theorem stripHashAux_true_nil : ∀ m, (∀ c ∈ m, isLineTerm c = false) →
    stripHashAux true m = [] := by
  intro m
  induction m with
  | nil => intro _; rfl
  | cons c rest ih =>
    intro h
    have hc : isLineTerm c = false := h c (by simp)
    simp only [stripHashAux, hc, Bool.false_eq_true, if_false, if_true]
    exact ih (fun d hd => h d (by simp [hd]))

theorem lineCandidates_comment (standardLibModules : List String) (l : List Char)
    (hnl : '\n' ∉ l) (hterm : ∀ c ∈ l, isLineTerm c = false) :
    lineCandidates standardLibModules (String.mk ('#' :: l)) = [] := by
  unfold lineCandidates cleanLines
  have hdata : (String.mk ('#' :: l)).data = '#' :: l := rfl
  rw [hdata]
  rw [stripTriple_cons_ne '"' '#' l (by decide)]
  rw [stripTriple_cons_ne '\'' '#' _ (by decide)]
  have hsub : ∀ c, c ∈ stripTriple '\'' (stripTriple '"' l) → c ∈ l := by
    intro c hc
    exact (stripTriple_sublist '"' l).mem ((stripTriple_sublist '\'' _).mem hc)
  have hnm : '\n' ∉ stripTriple '\'' (stripTriple '"' l) := by
    intro habs
    exact hnl (hsub _ habs)
  have hsplit : splitNl ('#' :: stripTriple '\'' (stripTriple '"' l)) =
      ['#' :: stripTriple '\'' (stripTriple '"' l)] := by
    apply splitNl_of_not_mem
    intro habs
    rcases List.mem_cons.mp habs with h1 | h1
    · exact absurd h1.symm (by decide)
    · exact hnm h1
  rw [hsplit]
  simp only [List.map_cons, List.map_nil]
  have hline : stripHashLine ('#' :: stripTriple '\'' (stripTriple '"' l)) = [] := by
    show stripHashAux false ('#' :: stripTriple '\'' (stripTriple '"' l)) = []
    simp only [stripHashAux, if_pos rfl, Bool.false_eq_true, if_false]
    exact stripHashAux_true_nil _ (fun c hc => hterm c (hsub c hc))
  rw [hline]
  rfl

theorem updateWrite_some_eq (data : Option String) (imp : List String) (w : String)
    (hw : updateWrite data imp = some w) :
    newPackagesOf (readLines data) imp ≠ [] ∧
    w = joinNlS (updatedPackagesOf (readLines data) (newPackagesOf (readLines data) imp)) := by
  unfold updateWrite at hw
  by_cases h : newPackagesOf (readLines data) imp = []
  · rw [if_pos h] at hw
    cases hw
  · rw [if_neg h] at hw
    exact ⟨h, (Option.some_inj.mp hw).symm⟩

theorem lineCandidates_mk (standardLibModules : List String) (l : List Char) :
    lineCandidates standardLibModules (String.mk l) =
      (cleanLines l).filterMap (linePackage standardLibModules) := rfl

/-- Claim C1, counterexample: with the existing manifest `numpy==1.21.0\n`
and the discovered packages `numpy` and `requests`, the code compares the
discovered name against the verbatim line `numpy==1.21.0`, treats `numpy`
as new, and writes the three lines `numpy`, `numpy==1.21.0`, `requests`;
the re-read manifest is not the claimed two entries. -/
theorem reconcile_roundtrip_cex :
    updateWrite (some "numpy==1.21.0\n") ["numpy", "requests"] =
      some "numpy\nnumpy==1.21.0\nrequests" ∧
    readLines (updateResult (some "numpy==1.21.0\n") ["numpy", "requests"]) ≠
      ["numpy==1.21.0", "requests"] :=
  ⟨by decide, by decide⟩

/-- Claim C1 (amended): persisting and re-reading yields a manifest whose
verbatim non-blank lines are exactly the union of the old manifest's
non-blank lines and the discovered names; a pinned line is preserved
verbatim but does not shadow its bare discovered name, which is added as a
separate line, so the scenario manifest becomes `numpy`, `numpy==1.21.0`,
`requests` (re-parsing those lines with the manifest pattern still gives
the keys `numpy` with `==1.21.0` preserved and unversioned `requests`). -/
theorem reconcile_roundtrip_lines_union
    (data : Option String) (importedPackages : List String)
    (himp : ∀ p ∈ importedPackages, p ≠ "" ∧ '\n' ∉ p.data) :
    (∀ l, l ∈ readLines (updateResult data importedPackages) ↔
        l ∈ readLines data ∨ l ∈ importedPackages) ∧
    readLines (updateResult (some "numpy==1.21.0\n") ["numpy", "requests"]) =
      ["numpy", "numpy==1.21.0", "requests"] ∧
    parseManifest "numpy\nnumpy==1.21.0\nrequests" =
      [("numpy", "==1.21.0"), ("requests", "")] := by
  refine ⟨?_, by decide, by decide⟩
  intro l
  cases hw : updateWrite data importedPackages with
  | none =>
    have hres : updateResult data importedPackages = data := by
      unfold updateResult
      rw [hw]
    rw [hres]
    have hnil : newPackagesOf (readLines data) importedPackages = [] := by
      unfold updateWrite at hw
      by_cases h : newPackagesOf (readLines data) importedPackages = []
      · exact h
      · rw [if_neg h] at hw
        cases hw
    have hsub := (newPackagesOf_eq_nil_iff _ _).mp hnil
    constructor
    · exact Or.inl
    · rintro (h | h)
      · exact h
      · exact hsub l h
  | some w =>
    have hres : updateResult data importedPackages = some w := by
      unfold updateResult
      rw [hw]
    rw [hres]
    have hlines := updateWrite_some_lines data importedPackages w himp hw
    rw [show readLines (some w) = existingPackagesOf w from rfl, hlines]
    rw [mem_updatedPackagesOf, mem_newPackagesOf]
    constructor
    · rintro (h | ⟨h1, h2⟩)
      · exact Or.inl h
      · exact Or.inr h1
    · rintro (h | h)
      · exact Or.inl h
      · by_cases he : l ∈ readLines data
        · exact Or.inl he
        · exact Or.inr ⟨h, he⟩

/-- Witness for C1's amended theorem at the scenario input. -/
theorem reconcile_roundtrip_lines_union_witness :
    (∀ p ∈ (["numpy", "requests"] : List String), p ≠ "" ∧ '\n' ∉ p.data) ∧
    (∀ l, l ∈ readLines (updateResult (some "numpy==1.21.0\n") ["numpy", "requests"]) ↔
        l ∈ readLines (some "numpy==1.21.0\n") ∨ l ∈ (["numpy", "requests"] : List String)) :=
  ⟨by decide,
    (reconcile_roundtrip_lines_union (some "numpy==1.21.0\n") ["numpy", "requests"]
      (by decide)).1⟩

/-- Claim C2: every name discovered by `collectImportedPackages` is a
validated top-level segment: it is not a standard-library module (for the
standard-library list in effect), it is non-empty, all its characters
satisfy the naming policy, and it contains no dot; and the scenario file
`import os`, `import requests`, `from sklearn.linear_model import
LinearRegression` yields exactly `requests` and `sklearn`, with `os`
filtered out. -/
theorem discovered_filtered_top_level
    (standardLibModules : List String) (root : Fs) (p : String)
    (hp : p ∈ collectImportedPackages standardLibModules root) :
    p ∉ standardLibModules ∧ p ≠ "" ∧ p.data.all validChar = true ∧ '.' ∉ p.data ∧
    collectImportedPackages defaultStandardLibModules
        (.file "test.py"
          "import os\nimport requests\nfrom sklearn.linear_model import LinearRegression\n"
          .nil) = ["requests", "sklearn"] := by
  have hv : isValidPackageName standardLibModules p = true := by
    apply scan_isValid standardLibModules root [] _ p hp
    intro q hq
    simp at hq
  obtain ⟨h1, h2, h3, h4⟩ := isValidPackageName_props standardLibModules p hv
  exact ⟨h1, h2, h3, h4, by decide⟩

/-- Witness for C2 at the discovered name `requests` of the scenario. -/
theorem discovered_filtered_top_level_witness :
    "requests" ∈ collectImportedPackages defaultStandardLibModules
        (.file "test.py"
          "import os\nimport requests\nfrom sklearn.linear_model import LinearRegression\n"
          .nil) ∧
    "requests" ∉ defaultStandardLibModules :=
  ⟨by decide,
    (discovered_filtered_top_level defaultStandardLibModules
      (.file "test.py"
        "import os\nimport requests\nfrom sklearn.linear_model import LinearRegression\n"
        .nil) "requests" (by decide)).1⟩

/-- Claim C3: content is normalized before matching — triple-quoted blocks
are removed first, then `#` comments: a complete double-quoted docstring
block contributes nothing (candidates equal those of the remaining text),
a line starting with `#` contributes nothing, and the scenario file with
docstring `import fake_pkg` followed by `import real_pkg` discovers only
`real_pkg` (likewise with a `#` comment). -/
theorem normalization_order_docstrings_comments
    (standardLibModules : List String) (d r l : List Char)
    (hd : hasTriple '"' (d ++ ['"', '"']) = false)
    (hl : '\n' ∉ l) (hterm : ∀ c ∈ l, isLineTerm c = false) :
    lineCandidates standardLibModules
        (String.mk ('"' :: '"' :: '"' :: (d ++ '"' :: '"' :: '"' :: r))) =
      lineCandidates standardLibModules (String.mk r) ∧
    lineCandidates standardLibModules (String.mk ('#' :: l)) = [] ∧
    lineCandidates defaultStandardLibModules
        "\"\"\"import fake_pkg\"\"\"\nimport real_pkg" = ["real_pkg"] ∧
    lineCandidates defaultStandardLibModules
        "# import fake_pkg\nimport real_pkg" = ["real_pkg"] := by
  refine ⟨?_, lineCandidates_comment standardLibModules l hl hterm, by decide, by decide⟩
  have hstrip := stripTriple_docstring '"' d r hd
  rw [lineCandidates_mk, lineCandidates_mk]
  unfold cleanLines
  rw [hstrip]

/-- Witness for C3 at the scenario docstring and a comment line. -/
theorem normalization_order_docstrings_comments_witness :
    hasTriple '"' ("import fake_pkg".data ++ ['"', '"']) = false ∧
    '\n' ∉ " import nope".data ∧
    (∀ c ∈ " import nope".data, isLineTerm c = false) ∧
    lineCandidates defaultStandardLibModules
        (String.mk ('"' :: '"' :: '"' ::
          ("import fake_pkg".data ++ '"' :: '"' :: '"' :: "\nimport real_pkg".data))) =
      lineCandidates defaultStandardLibModules (String.mk "\nimport real_pkg".data) :=
  ⟨by decide, by decide, by decide,
    (normalization_order_docstrings_comments defaultStandardLibModules
      "import fake_pkg".data "\nimport real_pkg".data " import nope".data
      (by decide) (by decide) (by decide)).1⟩

/-- Claim C4: the scan never descends into a directory named `myenv`: such
a directory is skipped wherever it occurs in a listing, and emptying the
children of every `myenv` directory at any depth leaves the discovered
package set unchanged — files under it contribute zero candidates. -/
theorem myenv_directories_contribute_nothing
    (standardLibModules : List String) (sub rest : Fs) (acc : List String) (t : Fs) :
    scan standardLibModules (.dir "myenv" sub rest) acc =
      scan standardLibModules rest acc ∧
    collectImportedPackages standardLibModules (pruneMyenv t) =
      collectImportedPackages standardLibModules t := by
  constructor
  · simp [scan]
  · exact scan_pruneMyenv standardLibModules t []

/-- Claim C5, counterexample: the written replacement content is produced
by `join('\n')` and is not newline-terminated — writing an empty manifest
with the single discovered package `requests` produces the content
`requests` whose last character is not a newline. -/
theorem persist_format_cex :
    updateWrite (some "") ["requests"] = some "requests" ∧
    ("requests" : String).data.getLast? ≠ some '\n' :=
  ⟨by decide, by decide⟩

/-- Claim C5 (amended): whenever the manifest is persisted, the written
content is the complete replacement: its non-blank lines are sorted in the
JavaScript string order, duplicate-free, and exactly the union of the old
non-blank lines and the discovered names; the content is non-empty but is
not newline-terminated (`join('\n')` produces no trailing newline). -/
theorem persist_full_replacement_sorted
    (data : Option String) (importedPackages : List String) (w : String)
    (himp : ∀ p ∈ importedPackages, p ≠ "" ∧ '\n' ∉ p.data)
    (hw : updateWrite data importedPackages = some w) :
    List.Sorted jsLe (existingPackagesOf w) ∧
    (existingPackagesOf w).Nodup ∧
    (∀ l, l ∈ existingPackagesOf w ↔ l ∈ readLines data ∨ l ∈ importedPackages) ∧
    w.data ≠ [] ∧ w.data.getLast? ≠ some '\n' := by
  obtain ⟨hnenil, hweq⟩ := updateWrite_some_eq data importedPackages w hw
  have hlines := updateWrite_some_lines data importedPackages w himp hw
  have hUmemprops : ∀ l ∈ updatedPackagesOf (readLines data)
      (newPackagesOf (readLines data) importedPackages), l ≠ "" ∧ '\n' ∉ l.data := by
    intro l hl
    rcases (mem_updatedPackagesOf _ _ l).mp hl with h | h
    · exact mem_readLines_props data l h
    · exact himp l ((mem_newPackagesOf _ _ l).mp h).1
  have hUne : updatedPackagesOf (readLines data)
      (newPackagesOf (readLines data) importedPackages) ≠ [] := by
    intro habs
    obtain ⟨p, hp⟩ := List.exists_mem_of_ne_nil _ hnenil
    have : p ∈ updatedPackagesOf (readLines data)
        (newPackagesOf (readLines data) importedPackages) :=
      (mem_updatedPackagesOf _ _ p).mpr (Or.inr hp)
    rw [habs] at this
    simp at this
  obtain ⟨c, hc, hcn⟩ := joinNl_getLast_ne_nl
    ((updatedPackagesOf (readLines data)
      (newPackagesOf (readLines data) importedPackages)).map String.data)
    (by simpa using hUne)
    (by
      intro piece hpiece
      obtain ⟨s, hs, hmk⟩ := List.mem_map.mp hpiece
      obtain ⟨h1, h2⟩ := hUmemprops s hs
      constructor
      · rw [← hmk]
        intro habs
        apply h1
        have : s = String.mk s.data := rfl
        rw [this, habs]
      · rw [← hmk]
        exact h2)
  have hwdata : w.data = joinNl ((updatedPackagesOf (readLines data)
      (newPackagesOf (readLines data) importedPackages)).map String.data) := by
    rw [hweq]
    rfl
  refine ⟨?_, ?_, ?_, ?_, ?_⟩
  · rw [hlines]
    exact sorted_updatedPackagesOf _ _
  · rw [hlines]
    exact nodup_updatedPackagesOf _ _
  · intro l
    rw [hlines, mem_updatedPackagesOf, mem_newPackagesOf]
    constructor
    · rintro (h | ⟨h1, h2⟩)
      · exact Or.inl h
      · exact Or.inr h1
    · rintro (h | h)
      · exact Or.inl h
      · by_cases he : l ∈ readLines data
        · exact Or.inl he
        · exact Or.inr ⟨h, he⟩
  · intro habs
    rw [habs] at hwdata
    rw [← hwdata] at hc
    simp at hc
  · rw [hwdata, hc]
    intro habs
    exact hcn (Option.some_inj.mp habs)

/-- Witness for C5's amended theorem at a concrete manifest. -/
theorem persist_full_replacement_sorted_witness :
    (∀ p ∈ (["requests", "numpy"] : List String), p ≠ "" ∧ '\n' ∉ p.data) ∧
    updateWrite (some "zlib==1.0\n") ["requests", "numpy"] =
      some "numpy\nrequests\nzlib==1.0" ∧
    List.Sorted jsLe (existingPackagesOf "numpy\nrequests\nzlib==1.0") :=
  ⟨by decide, by decide,
    (persist_full_replacement_sorted (some "zlib==1.0\n") ["requests", "numpy"]
      "numpy\nrequests\nzlib==1.0" (by decide) (by decide)).1⟩

/-- Claim C6, counterexample: the line `# comment` does not match the
manifest-line pattern, yet the read step of `updateRequirementsTxt` keeps
it verbatim as an entry of the in-memory manifest. -/
theorem manifest_read_cex :
    matchManifestLine ("# comment".data) = none ∧
    "# comment" ∈ readLines (some "# comment\nnumpy==1.0") :=
  ⟨by decide, by decide⟩

/-- Claim C6 (amended): when reading the manifest, no pattern is applied
and no error is raised: every line is kept verbatim as an entry exactly
when it is non-blank, so comments and stray lines become entries instead
of being ignored. -/
theorem manifest_read_verbatim_lines (data l : String) :
    l ∈ readLines (some data) ↔ l ∈ splitNlS data ∧ l ≠ "" := by
  rw [show readLines (some data) = existingPackagesOf data from rfl]
  exact mem_existingPackagesOf data l

/-- Claim C7, counterexample: a read error on `bad.py` makes the whole
discovery fail with that error even though the readable `good.py` with
`import requests` follows it — the scan does not continue and contributes
no packages at all. -/
theorem file_read_error_cex :
    collectImportedPackagesE defaultStandardLibModules
        (.file "bad.py" (.error "EACCES") (.file "good.py" (.ok "import requests") .nil)) =
      .error "EACCES" ∧
    collectImportedPackagesE defaultStandardLibModules
        (.file "bad.py" (.error "EACCES") (.file "good.py" (.ok "import requests") .nil)) ≠
      .ok ["requests"] :=
  ⟨by decide, by decide⟩

/-- Claim C7 (amended): a read error on one scanned `.py` file is not
recovered locally: the exception becomes the result of the entire scan
(regardless of the remaining listing and of what was already collected),
and an error in a subdirectory propagates past its parent directory. -/
theorem file_read_error_aborts
    (standardLibModules : List String) (base err : String) (rest : FsE)
    (acc : List String) :
    scanE standardLibModules (.file (base ++ ".py") (.error err) rest) acc =
      .error err ∧
    (∀ (name : String) (children rest2 : FsE) (acc2 : List String) (e2 : String),
      name ≠ "myenv" → scanE standardLibModules children acc2 = .error e2 →
      scanE standardLibModules (.dir name children rest2) acc2 = .error e2) := by
  constructor
  · have hpy : pyName (base ++ ".py") = true := by
      unfold pyName
      rw [String.data_append, List.isSuffixOf_iff_suffix]
      exact List.suffix_append _ _
    unfold scanE
    rw [if_pos hpy]
  · intro name children rest2 acc2 e2 hn hch
    unfold scanE
    rw [if_neg hn, hch]

/-- Witness for C7's amended theorem at a concrete failing file. -/
theorem file_read_error_aborts_witness :
    scanE defaultStandardLibModules (.file ("bad" ++ ".py") (.error "EACCES") .nil) [] =
      .error "EACCES" :=
  (file_read_error_aborts defaultStandardLibModules "bad" "EACCES" .nil []).1

theorem updateWrite_after_update_none
    (data : Option String) (importedPackages : List String)
    (himp : ∀ p ∈ importedPackages, p ≠ "" ∧ '\n' ∉ p.data) :
    updateWrite (updateResult data importedPackages) importedPackages = none ∧
    updateResult (updateResult data importedPackages) importedPackages =
      updateResult data importedPackages := by
  have hmain : updateWrite (updateResult data importedPackages) importedPackages = none := by
    cases hw : updateWrite data importedPackages with
    | none =>
      have hres : updateResult data importedPackages = data := by
        unfold updateResult
        rw [hw]
      rw [hres, hw]
    | some w =>
      have hres : updateResult data importedPackages = some w := by
        unfold updateResult
        rw [hw]
      rw [hres]
      have hlines := updateWrite_some_lines data importedPackages w himp hw
      have hnil : newPackagesOf (updatedPackagesOf (readLines data)
          (newPackagesOf (readLines data) importedPackages)) importedPackages = [] := by
        rw [newPackagesOf_eq_nil_iff]
        intro p hp
        rw [mem_updatedPackagesOf]
        by_cases he : p ∈ readLines data
        · exact Or.inl he
        · exact Or.inr ((mem_newPackagesOf _ _ p).mpr ⟨hp, he⟩)
      unfold updateWrite
      rw [show readLines (some w) = existingPackagesOf w from rfl, hlines, hnil]
      rw [if_pos rfl]
  refine ⟨hmain, ?_⟩
  show (match updateWrite (updateResult data importedPackages) importedPackages with
    | none => updateResult data importedPackages
    | some w => some w) = updateResult data importedPackages
  rw [hmain]

/-- Claim C8: reconciliation is idempotent — for any project tree and any
manifest, immediately re-running `updateRequirementsTxt` on the result of a
first run, with the same sources (hence the same discovered set), finds
nothing new: the second call performs no write and the manifest content is
unchanged. -/
theorem reconcile_idempotent (standardLibModules : List String) (root : Fs)
    (data : Option String) :
    updateWrite (updateResult data (collectImportedPackages standardLibModules root))
      (collectImportedPackages standardLibModules root) = none ∧
    updateResult (updateResult data (collectImportedPackages standardLibModules root))
      (collectImportedPackages standardLibModules root) =
      updateResult data (collectImportedPackages standardLibModules root) := by
  apply updateWrite_after_update_none
  intro p hp
  have hv : isValidPackageName standardLibModules p = true := by
    apply scan_isValid standardLibModules root [] _ p hp
    intro q hq
    simp at hq
  obtain ⟨-, h2, h3, -⟩ := isValidPackageName_props standardLibModules p hv
  refine ⟨h2, ?_⟩
  intro habs
  have := List.all_eq_true.mp h3 '\n' habs
  simp [validChar] at this

/-- Witness for C8 at a concrete tree and manifest. -/
theorem reconcile_idempotent_witness :
    updateWrite
      (updateResult (some "numpy==1.21.0\n")
        (collectImportedPackages defaultStandardLibModules
          (.file "app.py" "import numpy\nimport requests" .nil)))
      (collectImportedPackages defaultStandardLibModules
        (.file "app.py" "import numpy\nimport requests" .nil)) = none :=
  (reconcile_idempotent defaultStandardLibModules
    (.file "app.py" "import numpy\nimport requests" .nil) (some "numpy==1.21.0\n")).1

/-- Claim C9, counterexample: `globalProjectConfig` is a cross-invocation
cache — after an invocation loads the configuration of root `r1`, a later
invocation for root `r2` receives `r1`'s configuration instead of the one
on disk for `r2`, and the discovered set of the same scan differs
accordingly (the cached standard-library list filters `requests` out). -/
theorem global_config_cache_cex :
    (getProjectConfig loadConfigDemo
        ((getProjectConfig loadConfigDemo none "r1").2) "r2").1 ≠
      (getProjectConfig loadConfigDemo none "r2").1 ∧
    collectImportedPackages
        ((getProjectConfig loadConfigDemo
          ((getProjectConfig loadConfigDemo none "r1").2) "r2").1).standardLibModules
        (.file "app.py" "import requests" .nil) = [] ∧
    collectImportedPackages
        ((getProjectConfig loadConfigDemo none "r2").1).standardLibModules
        (.file "app.py" "import requests" .nil) = ["requests"] :=
  ⟨by decide, by decide, by decide⟩

/-- Claim C9 (amended): the core keeps one piece of mutable
cross-invocation state, the `globalProjectConfig` cache: with a cached
configuration every call returns the cache unchanged regardless of its
project-path argument, and only a call with an empty cache reads the
configuration (including its standard-library list) from the file
system. -/
theorem global_config_cache_semantics (loadProjectConfig : String → ProjectConfig)
    (cfg : ProjectConfig) (projectPath : String) :
    (getProjectConfig loadProjectConfig (some cfg) projectPath).1 = cfg ∧
    (getProjectConfig loadProjectConfig (some cfg) projectPath).2 = some cfg ∧
    (getProjectConfig loadProjectConfig none projectPath).1 =
      loadProjectConfig projectPath ∧
    (getProjectConfig loadProjectConfig none projectPath).2 =
      some (loadProjectConfig projectPath) :=
  ⟨rfl, rfl, rfl, rfl⟩

/-- Claim C10: when every discovered package already occurs verbatim among
the manifest's non-blank lines, `updateRequirementsTxt` performs no write
at all — the file content is left untouched rather than rewritten or
normalized. -/
theorem no_new_packages_no_write (data : Option String) (importedPackages : List String)
    (h : ∀ p ∈ importedPackages, p ∈ readLines data) :
    updateWrite data importedPackages = none := by
  unfold updateWrite
  rw [show newPackagesOf (readLines data) importedPackages = [] from
    (newPackagesOf_eq_nil_iff _ _).mpr h]
  rw [if_pos rfl]

/-- Witness for C10 at a concrete manifest already containing the
discovered package. -/
theorem no_new_packages_no_write_witness :
    (∀ p ∈ (["requests"] : List String), p ∈ readLines (some "numpy\nrequests")) ∧
    updateWrite (some "numpy\nrequests") ["requests"] = none :=
  ⟨by decide, no_new_packages_no_write (some "numpy\nrequests") ["requests"] (by decide)⟩

end Pyracantha
